import Mathlib

/-!
Shallow embedding of `src/natural_language_processing.py` (a text-cleaning and
corpus-building notebook) and verification of its specification.

Embedded here, translated from the source and the libraries it calls:
* Python `dict` / `collections.Counter` / `collections.defaultdict(int)` as
  insertion-ordered association lists (`dGetOpt`, `dGet`, `dUpd`, `dSet`);
* the text-normalization pipeline of cells 17 and 19 (`lower_tokens`,
  `alpha_only`, `no_stops`, `lemmatized`) over ASCII character classification
  (`str.lower` / `str.isalpha` restricted to ASCII; every stop-list entry and
  every token the claims mention is ASCII);
* `Counter.most_common` (a stable descending sort by count, as implemented by
  `heapq.nlargest` / Python's stable `sorted`);
* gensim's `Dictionary.__init__` / `doc2bow` (`dictionaryFrom`, `doc2bow`),
  including the `sorted(missing)` step of `doc2bow(allow_update=True)`;
* the corpus-total counting over `defaultdict(int)` (`totalWordCount`);
* the web-fetch loop of cell 21 with Python's lazy evaluation of
  `except`-clause class expressions (`fetchLoop`).
-/

namespace NLP

/-! ### Insertion-ordered dictionaries (Python `dict`, `Counter`, `defaultdict(int)`)

A Python dict is modelled as an association list holding at most one binding
per key; iteration order is insertion order, as in CPython 3.7+. -/

variable {κ : Type} [DecidableEq κ]

/-- `d.get(k)`: the stored value of `k`, `none` when `k` is absent. -/
def dGetOpt : List (κ × Nat) → κ → Option Nat
  | [], _ => none
  | (j, v) :: m, k => if j = k then some v else dGetOpt m k

/-- A `defaultdict(int)` read `d[k]`: the stored value, `0` when `k` is absent. -/
def dGet (m : List (κ × Nat)) (k : κ) : Nat := (dGetOpt m k).getD 0

/-- The keys of the dictionary in insertion order. -/
def keys (m : List (κ × Nat)) : List κ := m.map Prod.fst

/-- Python's `k in d`. -/
def hasKey (m : List (κ × Nat)) (k : κ) : Bool := (dGetOpt m k).isSome

/-- `d[k] += c` on a `defaultdict(int)` (also the update step of `Counter`
counting): increments the binding in place, appending a fresh binding at the
end of the insertion order when `k` is new. -/
def dUpd : List (κ × Nat) → κ → Nat → List (κ × Nat)
  | [], k, c => [(k, c)]
  | (j, v) :: m, k, c => if j = k then (j, v + c) :: m else (j, v) :: dUpd m k c

/-- `d[k] = v`: overwrites in place, appending at the end when `k` is new. -/
def dSet : List (κ × Nat) → κ → Nat → List (κ × Nat)
  | [], k, v => [(k, v)]
  | (j, w) :: m, k, v => if j = k then (j, v) :: m else (j, w) :: dSet m k v

/-- Sum of all stored values of the dictionary. -/
def sumVals (m : List (κ × Nat)) : Nat := (m.map Prod.snd).sum

/-- Folding `d[p.1] += p.2` over a list of pairs, as the corpus-total loop does. -/
def foldUpd (m : List (κ × Nat)) (l : List (κ × Nat)) : List (κ × Nat) :=
  l.foldl (fun d p => dUpd d p.1 p.2) m

/-! ### Sorting (Python `sorted` and `heapq.nlargest` are stable sorts) -/

variable {α : Type}

/-- Stable insertion into a sorted list: scan past `q` while `pass p q` holds,
then place `p` in front of the rest. -/
def insertSorted (pass : α → α → Bool) (p : α) : List α → List α
  | [] => [p]
  | q :: qs => if pass p q then q :: insertSorted pass p qs else p :: q :: qs

/-- Stable insertion sort: an element `p` moves past an element `q` that
preceded it exactly when `pass p q`, so elements `pass` cannot separate keep
their original relative order, as with Python's stable sorts. -/
def sortStable (pass : α → α → Bool) (l : List α) : List α :=
  l.foldr (insertSorted pass) []

/-! ### Characters and strings (ASCII model of `str.lower` / `str.isalpha`)

Every stop-list entry and every token the claims mention is ASCII, so the
ASCII case and letter tables model the Python behavior of the program. -/

/-- Python `ch.lower()` on ASCII: code points 65-90 map to 97-122,
everything else is unchanged. -/
def pyCharLower (c : Char) : Char :=
  if 65 ≤ c.toNat ∧ c.toNat ≤ 90 then Char.ofNat (c.toNat + 32) else c

/-- Python `s.lower()` (ASCII model): lower-case every character. -/
def pyLower (s : String) : String := String.mk (s.data.map pyCharLower)

/-- Alphabetic test for one character (ASCII model): a letter a-z or A-Z. -/
def pyIsAlphaChar (c : Char) : Bool :=
  decide ((97 ≤ c.toNat ∧ c.toNat ≤ 122) ∨ (65 ≤ c.toNat ∧ c.toNat ≤ 90))

/-- Python `s.isalpha()` (ASCII model): `s` is non-empty and every character
is alphabetic. The empty string, and any token holding a digit, a punctuation
mark or an apostrophe, fails the test. -/
def pyIsAlpha (s : String) : Bool := !s.data.isEmpty && s.data.all pyIsAlphaChar

/-- Python string comparison `a < b`: lexicographic on code points. -/
def lexLt : List Char → List Char → Bool
  | [], [] => false
  | [], _ :: _ => true
  | _ :: _, [] => false
  | a :: as, b :: bs => if a < b then true else if b < a then false else lexLt as bs

/-- Python `a < b` for strings. -/
def strLt (a b : String) : Bool := lexLt a.data b.data

/-! ### `collections.Counter` (cells 17 and 19 of the source) -/

/-- Counting tokens into an existing dictionary: `for t in ts: d[t] += 1`. -/
def countUpd (m : List (String × Nat)) (ts : List String) : List (String × Nat) :=
  ts.foldl (fun d t => dUpd d t 1) m

/-- `Counter(tokens)`: occurrence count per distinct token, keys ordered by
first encounter (CPython dicts preserve insertion order). -/
def counterFold (ts : List String) : List (String × Nat) := countUpd [] ts

/-- Index of the first occurrence of `w` in `ts` (meaningful when `w ∈ ts`). -/
def firstIdx : List String → String → Nat
  | [], _ => 0
  | t :: ts, w => if t = w then 0 else firstIdx ts w + 1

/-- `Counter.most_common(n)`: the `n` entries of largest count.
`heapq.nlargest(n, items, key=itemgetter(1))` is a stable descending sort by
count followed by truncation: on equal counts the entry that was inserted
first comes first. -/
def most_common (ts : List String) (n : Nat) : List (String × Nat) :=
  (sortStable (fun p q : String × Nat => decide (p.2 < q.2)) (counterFold ts)).take n

/-! ### The text-normalization pipeline (cell 19 of the source) -/

/-- The modern-English stop list of the source, transcribed verbatim
(apostrophes written `\x27`; the final entry is the empty string). -/
def english_stops : List String :=
  ["i","me","my","myself","we","our","ours","ourselves","you","your","yours",
   "yourself","yourselves","he","him","his","himself","she","her","hers",
   "herself","it","its","itself","they","them","their","theirs","themselves",
   "what","which","who","whom","this","that","these","those","am","is","are",
   "was","were","be","been","being","have","has","had","having","do","does",
   "did","doing","a","an","the","and","but","if","or","because","as","until",
   "while","of","at","by","for","with","about","against","between","into",
   "through","during","before","after","above","below","to","from","up",
   "down","in","out","on","off","over","under","again","further","then",
   "once","here","there","when","where","why","how","all","any","both",
   "each","few","more","most","other","some","such","no","nor","not","only",
   "own","same","so","than","too","very","s","t","can","will","just","don",
   "should","now","d","ll","m","o","re","ve","y","ain","aren","couldn",
   "didn","doesn","hadn","hasn","haven","isn","ma","mightn","mustn","needn",
   "shan","shouldn","wasn","weren","won",""]

/-- The Early-Modern English stop list of the source, transcribed verbatim
(apostrophes written `\x27`). -/
def earlymodern_stops : List String :=
  ["art","doth","dost","\x27ere","hast","hath","hence","hither","nigh","oft",
   "should\x27st","thither","tither","thee","thou","thine","thy","\x27tis",
   "\x27twas","wast","whence","wherefore","whereto","withal","would\x27st",
   "ye","yon","yonder"]

/-- The configured stop-word set of cell 19: `english_stops + earlymodern_stops`. -/
def troilus_stops : List String := english_stops ++ earlymodern_stops

/-- `lower_tokens = [t.lower() for t in tokens]`. -/
def lower_tokens (tokens : List String) : List String := tokens.map pyLower

/-- `alpha_only = [t for t in lower_tokens if t.isalpha()]`. -/
def alpha_only (tokens : List String) : List String :=
  (lower_tokens tokens).filter pyIsAlpha

/-- `no_stops = [t for t in alpha_only if t not in (english_stops + earlymodern_stops)]`. -/
def no_stops (tokens : List String) : List String :=
  (alpha_only tokens).filter (fun t => !troilus_stops.contains t)

/-- `lemmatized = [wordnet_lemmatizer.lemmatize(t) for t in no_stops]`,
with the lemmatizer passed as a function. -/
def lemmatized (lem : String → String) (tokens : List String) : List String :=
  (no_stops tokens).map lem

/-- `WordNetLemmatizer().lemmatize(t)` in the source's default noun mode. The
WordNet knowledge base is external data, so only the behavior the claims need
is embedded: WordNet's morphological rules strip the regular plural suffix
`s` when the result is a known noun, so the plural `beings` lemmatizes to the
noun `being`; every other token modelled here comes back unchanged, as
`lemmatize` returns the surface form when no base form is found. -/
def wordnet_lemmatize (t : String) : String := if t = "beings" then "being" else t

/-- The configured stop-word set with the apostrophe-bearing entries removed
(only `earlymodern_stops` has such entries). -/
def troilus_stops_pruned : List String :=
  troilus_stops.filter (fun s => !s.data.contains '\x27')

/-- The stop-word filter run against the pruned stop set. -/
def no_stops_pruned (tokens : List String) : List String :=
  (alpha_only tokens).filter (fun t => !troilus_stops_pruned.contains t)

/-- The full pipeline run against the pruned stop set. -/
def lemmatized_pruned (lem : String → String) (tokens : List String) : List String :=
  (no_stops_pruned tokens).map lem

/-! ### gensim `Dictionary` (cells 23-24 of the source) -/

/-- Consecutive id assignment starting at `n`: `token2id[w] = len(token2id)`
executed once per listed token. -/
def assignIds : List String → Nat → List (String × Nat)
  | [], _ => []
  | w :: ws, n => (w, n) :: assignIds ws (n + 1)

/-- The missing-token list of one `doc2bow(document, allow_update=True)` call:
`missing = sorted(x for x in iteritems(counter) if x[0] not in token2id)`.
The counter items are pairs with distinct first components, so sorting the
pairs orders them lexicographically by token. -/
def missingTokens (t2i : List (String × Nat)) (doc : List String) : List String :=
  sortStable (fun a b => strLt b a)
    (((counterFold doc).map Prod.fst).filter (fun w => !hasKey t2i w))

/-- One `doc2bow(document, allow_update=True)` vocabulary update, as run by
`Dictionary.__init__` / `add_documents` for each document: the document tokens
not yet in `token2id` are collected from the document's counter, sorted, and
appended with the next consecutive ids (`token2id[w] = len(token2id)`). -/
def addDocument (t2i : List (String × Nat)) (doc : List String) : List (String × Nat) :=
  t2i ++ assignIds (missingTokens t2i doc) t2i.length

/-- `Dictionary(documents)`: fold the vocabulary update over the documents in
input order. (`prune_at` trimming is not modelled: it only triggers past
2,000,000 distinct tokens.) -/
def dictionaryFrom (docs : List (List String)) : List (String × Nat) :=
  docs.foldl addDocument []

/-- One step of the `doc2bow` dict comprehension `{token2id[w]: freq for w,
freq in counter.items() if w in token2id}`: a counter entry whose token is in
the vocabulary stores its count under the token's id, others are skipped. -/
def bowStep (t2i : List (String × Nat)) (acc : List (Nat × Nat))
    (p : String × Nat) : List (Nat × Nat) :=
  match dGetOpt t2i p.1 with
  | some i => dSet acc i p.2
  | none => acc

/-- `dictionary.doc2bow(document)` with no update: count the document's
tokens, keep those present in `token2id`, collect `{token2id[w]: freq}` as a
dict, and sort the items by id (`result = sorted(iteritems(result))`). -/
def doc2bow (t2i : List (String × Nat)) (doc : List String) : List (Nat × Nat) :=
  sortStable (fun a b : Nat × Nat => decide (b.1 < a.1))
    ((counterFold doc).foldl (bowStep t2i) [])

/-! ### Corpus totals (cell 26 of the source) -/

/-- `total_word_count = defaultdict(int)` filled by `for word_id, word_count
in itertools.chain.from_iterable(corpus): total_word_count[word_id] +=
word_count`. -/
def totalWordCount (corpus : List (List (Nat × Nat))) : List (Nat × Nat) :=
  foldUpd [] corpus.flatten

/-! ### The web-fetch loop (cell 21 of the source) -/

/-- Outcome of `requests.get(url)` then `r.raise_for_status()` for one URL. -/
inductive FetchOutcome where
  /-- A 2xx response; the payload stands for the response object. -/
  | success (resp : Nat)
  /-- `raise_for_status()` raised `requests.exceptions.HTTPError` (non-2xx status). -/
  | httpError
  /-- `requests.get` itself raised, e.g. unreachable host. -/
  | connectionError
deriving DecidableEq

/-- Whether the bare name `HTTPError` is bound when the loop runs. The source
only executes `import requests` (plus imports of other, unrelated names); no
statement binds a top-level name `HTTPError`, so in the source this is `false`. -/
def httpErrorNameBound : Bool := false

/-- The fetch loop of cell 21. Per Python semantics, the class expression of
an `except` clause is evaluated only once the `try` body has raised; if that
name is unbound, its lookup raises `NameError`, which supersedes the original
exception and propagates out of the whole `try` statement - the later
`except Exception` clause is not consulted. When the name is bound, the
`except HTTPError` and `except Exception` clauses print and continue, and the
`else` branch appends the response only after a successful fetch. -/
def fetchLoop (bound : Bool) : List FetchOutcome → List Nat → Except String (List Nat)
  | [], responses => Except.ok responses
  | FetchOutcome.success r :: rest, responses => fetchLoop bound rest (responses ++ [r])
  | FetchOutcome.httpError :: rest, responses =>
      if bound then fetchLoop bound rest responses
      else Except.error "NameError: name HTTPError is not defined"
  | FetchOutcome.connectionError :: rest, responses =>
      if bound then fetchLoop bound rest responses
      else Except.error "NameError: name HTTPError is not defined"

end NLP

namespace NLP

theorem dGetOpt_dUpd_self (m : List (κ × Nat)) [DecidableEq κ] (k : κ) (c : Nat) :
    dGetOpt (dUpd m k c) k = some (dGet m k + c) := by
  induction m with
  | nil => simp [dUpd, dGetOpt, dGet]
  | cons p m ih =>
    obtain ⟨j, v⟩ := p
    by_cases hjk : j = k
    · subst hjk
      simp [dUpd, dGetOpt, dGet]
    · simp [dUpd, dGetOpt, dGet, hjk] at ih ⊢
      exact ih

theorem dGetOpt_dUpd_ne (m : List (κ × Nat)) [DecidableEq κ] (k k' : κ) (c : Nat)
    (h : k' ≠ k) : dGetOpt (dUpd m k c) k' = dGetOpt m k' := by
  have hkk : ¬ k = k' := fun hh => h hh.symm
  induction m with
  | nil => simp [dUpd, dGetOpt, hkk]
  | cons p m ih =>
    obtain ⟨j, v⟩ := p
    by_cases hjk : j = k
    · subst hjk
      simp [dUpd, dGetOpt, hkk]
    · by_cases hjk' : j = k'
      · subst hjk'
        simp [dUpd, dGetOpt, hjk]
      · simp [dUpd, dGetOpt, hjk, hjk']
        exact ih

theorem dGet_dUpd (m : List (κ × Nat)) [DecidableEq κ] (k k' : κ) (c : Nat) :
    dGet (dUpd m k c) k' = dGet m k' + if k' = k then c else 0 := by
  by_cases h : k' = k
  · subst h
    simp [dGet, dGetOpt_dUpd_self]
  · simp [dGet, dGetOpt_dUpd_ne m k k' c h, h]

theorem mem_keys_dUpd (m : List (κ × Nat)) [DecidableEq κ] (k k' : κ) (c : Nat) :
    k' ∈ keys (dUpd m k c) ↔ k' ∈ keys m ∨ k' = k := by
  induction m with
  | nil => simp [dUpd, keys]
  | cons p m ih =>
    obtain ⟨j, v⟩ := p
    by_cases hjk : j = k
    · subst hjk
      by_cases hk : k' = j <;> simp [dUpd, keys, hk]
    · simp [dUpd, keys, hjk] at ih ⊢
      rw [or_assoc]
      exact or_congr_right ih

theorem nodup_keys_dUpd (m : List (κ × Nat)) [DecidableEq κ] (k : κ) (c : Nat)
    (h : (keys m).Nodup) : (keys (dUpd m k c)).Nodup := by
  induction m with
  | nil => simp [dUpd, keys]
  | cons p m ih =>
    obtain ⟨j, v⟩ := p
    rw [show keys ((j, v) :: m) = j :: keys m from rfl, List.nodup_cons] at h
    by_cases hjk : j = k
    · subst hjk
      rw [show dUpd ((j, v) :: m) j c = (j, v + c) :: m from by simp [dUpd]]
      rw [show keys ((j, v + c) :: m) = j :: keys m from rfl, List.nodup_cons]
      exact h
    · rw [show dUpd ((j, v) :: m) k c = (j, v) :: dUpd m k c from by simp [dUpd, hjk]]
      rw [show keys ((j, v) :: dUpd m k c) = j :: keys (dUpd m k c) from rfl, List.nodup_cons]
      refine ⟨?_, ih h.2⟩
      intro hb
      rcases (mem_keys_dUpd m k j c).mp hb with hbm | hbk
      · exact h.1 hbm
      · exact hjk hbk

theorem dGetOpt_eq_none_iff (m : List (κ × Nat)) [DecidableEq κ] (k : κ) :
    dGetOpt m k = none ↔ k ∉ keys m := by
  induction m with
  | nil => simp [dGetOpt, keys]
  | cons p m ih =>
    obtain ⟨j, v⟩ := p
    by_cases hjk : j = k
    · subst hjk
      simp [dGetOpt, keys]
    · rw [show dGetOpt ((j, v) :: m) k = dGetOpt m k from by simp [dGetOpt, hjk]]
      rw [show keys ((j, v) :: m) = j :: keys m from rfl, List.mem_cons, ih]
      constructor
      · intro hnk hor
        rcases hor with hjke | hmem
        · exact hjk hjke.symm
        · exact hnk hmem
      · intro hni hmem
        exact hni (Or.inr hmem)

theorem dGetOpt_isSome_iff (m : List (κ × Nat)) [DecidableEq κ] (k : κ) :
    (dGetOpt m k).isSome = true ↔ k ∈ keys m := by
  constructor
  · intro hs
    by_contra hk
    rw [(dGetOpt_eq_none_iff m k).mpr hk] at hs
    simp at hs
  · intro hk
    rcases ho : dGetOpt m k with _ | v
    · exact absurd hk ((dGetOpt_eq_none_iff m k).mp ho)
    · rfl

theorem dGetOpt_mem (m : List (κ × Nat)) [DecidableEq κ] (k : κ) (v : Nat)
    (h : dGetOpt m k = some v) : (k, v) ∈ m := by
  induction m with
  | nil => cases h
  | cons p m ih =>
    obtain ⟨j, w⟩ := p
    by_cases hjk : j = k
    · subst hjk
      simp [dGetOpt] at h
      simp [h]
    · simp [dGetOpt, hjk] at h
      exact List.mem_cons_of_mem _ (ih h)

theorem mem_dGetOpt (m : List (κ × Nat)) [DecidableEq κ] (k : κ) (v : Nat)
    (hn : (keys m).Nodup) (h : (k, v) ∈ m) : dGetOpt m k = some v := by
  induction m with
  | nil => cases h
  | cons p m ih =>
    obtain ⟨j, w⟩ := p
    rw [show keys ((j, w) :: m) = j :: keys m from rfl, List.nodup_cons] at hn
    rcases List.mem_cons.mp h with he | hm
    · cases he
      simp [dGetOpt]
    · have hk : ¬ j = k := by
        intro hc
        subst hc
        exact hn.1 (List.mem_map_of_mem Prod.fst hm)
      simp [dGetOpt, hk]
      exact ih hn.2 hm

theorem sumVals_dUpd (m : List (κ × Nat)) [DecidableEq κ] (k : κ) (c : Nat) :
    sumVals (dUpd m k c) = sumVals m + c := by
  induction m with
  | nil => simp [dUpd, sumVals]
  | cons p m ih =>
    obtain ⟨j, v⟩ := p
    by_cases hjk : j = k
    · subst hjk
      simp [dUpd, sumVals]
      omega
    · simp [dUpd, sumVals, hjk] at ih ⊢
      omega

theorem mem_keys_dSet (m : List (κ × Nat)) [DecidableEq κ] (k k' : κ) (v : Nat) :
    k' ∈ keys (dSet m k v) ↔ k' ∈ keys m ∨ k' = k := by
  induction m with
  | nil => simp [dSet, keys]
  | cons p m ih =>
    obtain ⟨j, w⟩ := p
    by_cases hjk : j = k
    · subst hjk
      by_cases hk : k' = j <;> simp [dSet, keys, hk]
    · simp [dSet, keys, hjk] at ih ⊢
      rw [or_assoc]
      exact or_congr_right ih

theorem sumVals_dSet_fresh (m : List (κ × Nat)) [DecidableEq κ] (k : κ) (v : Nat)
    (h : k ∉ keys m) : sumVals (dSet m k v) = sumVals m + v := by
  induction m with
  | nil => simp [dSet, sumVals]
  | cons p m ih =>
    obtain ⟨j, w⟩ := p
    simp [keys] at h
    have hjk : j ≠ k := fun hc => h.1 hc.symm
    simp [dSet, sumVals, hjk] at ih ⊢
    rw [ih (by simpa [keys] using h.2)]
    omega

theorem dGet_foldUpd (l : List (κ × Nat)) [DecidableEq κ] :
    ∀ (m : List (κ × Nat)) (k : κ),
      dGet (foldUpd m l) k = dGet m k + ((l.filter (fun p => p.1 = k)).map Prod.snd).sum := by
  induction l with
  | nil => intro m k; simp [foldUpd]
  | cons p l ih =>
    intro m k
    obtain ⟨j, v⟩ := p
    have : foldUpd m ((j, v) :: l) = foldUpd (dUpd m j v) l := rfl
    rw [this, ih (dUpd m j v) k, dGet_dUpd]
    by_cases hjk : j = k
    · subst hjk
      simp
      omega
    · have hkj : ¬ k = j := fun hh => hjk hh.symm
      simp [hjk, hkj]

theorem mem_keys_foldUpd (l : List (κ × Nat)) [DecidableEq κ] :
    ∀ (m : List (κ × Nat)) (k : κ),
      k ∈ keys (foldUpd m l) ↔ k ∈ keys m ∨ k ∈ l.map Prod.fst := by
  induction l with
  | nil => intro m k; simp [foldUpd]
  | cons p l ih =>
    intro m k
    obtain ⟨j, v⟩ := p
    have : foldUpd m ((j, v) :: l) = foldUpd (dUpd m j v) l := rfl
    rw [this]
    rw [ih (dUpd m j v) k]
    rw [mem_keys_dUpd]
    simp
    tauto

/-! ### Sorting lemmas -/

theorem mem_insertSorted (pass : α → α → Bool) (p x : α) (l : List α) :
    x ∈ insertSorted pass p l ↔ x = p ∨ x ∈ l := by
  induction l with
  | nil => simp [insertSorted]
  | cons q qs ih =>
    by_cases h : pass p q
    · simp only [insertSorted, if_pos h, List.mem_cons, ih]
      tauto
    · simp only [insertSorted, if_neg h, List.mem_cons]

theorem insertSorted_perm (pass : α → α → Bool) (p : α) (l : List α) :
    (insertSorted pass p l).Perm (p :: l) := by
  induction l with
  | nil => simp [insertSorted]
  | cons q qs ih =>
    by_cases h : pass p q
    · rw [show insertSorted pass p (q :: qs) = q :: insertSorted pass p qs from by
        simp [insertSorted, h]]
      exact (ih.cons q).trans (List.Perm.swap p q qs)
    · rw [show insertSorted pass p (q :: qs) = p :: q :: qs from by simp [insertSorted, h]]

theorem sortStable_perm (pass : α → α → Bool) (l : List α) :
    (sortStable pass l).Perm l := by
  induction l with
  | nil => simp [sortStable]
  | cons p ps ih =>
    have : sortStable pass (p :: ps) = insertSorted pass p (sortStable pass ps) := rfl
    rw [this]
    exact (insertSorted_perm pass p _).trans (ih.cons p)

/-! ### Character and string lemmas -/

theorem toNat_charOfNat (n : Nat) (h : n ≤ 122) : (Char.ofNat n).toNat = n := by
  have hv : n.isValidChar := by
    unfold Nat.isValidChar
    omega
  rw [Char.ofNat, dif_pos hv]
  rfl

theorem pyCharLower_toNat (c : Char) :
    (pyCharLower c).toNat =
      if 65 ≤ c.toNat ∧ c.toNat ≤ 90 then c.toNat + 32 else c.toNat := by
  unfold pyCharLower
  by_cases h : 65 ≤ c.toNat ∧ c.toNat ≤ 90
  · rw [if_pos h, if_pos h, toNat_charOfNat _ (by omega)]
  · rw [if_neg h, if_neg h]

theorem pyCharLower_lowercase (c : Char) (h : pyIsAlphaChar (pyCharLower c) = true) :
    97 ≤ (pyCharLower c).toNat ∧ (pyCharLower c).toNat ≤ 122 := by
  rw [pyIsAlphaChar, decide_eq_true_eq] at h
  rcases h with hl | hu
  · exact hl
  · rw [pyCharLower_toNat] at hu ⊢
    by_cases hc : 65 ≤ c.toNat ∧ c.toNat ≤ 90
    · rw [if_pos hc] at hu
      omega
    · rw [if_neg hc] at hu
      omega

theorem pyLower_data (s : String) : (pyLower s).data = s.data.map pyCharLower := rfl

theorem pyIsAlpha_iff (s : String) :
    pyIsAlpha s = true ↔ s.data ≠ [] ∧ ∀ c ∈ s.data, pyIsAlphaChar c = true := by
  unfold pyIsAlpha
  rw [Bool.and_eq_true, List.all_eq_true]
  simp

theorem pyIsAlphaChar_ne_apos (c : Char) (h : pyIsAlphaChar c = true) : c ≠ '\x27' := by
  intro hc
  subst hc
  exact absurd h (by decide)

theorem contains_congr_of_mem_iff {l₁ l₂ : List String} (t : String)
    (h : t ∈ l₁ ↔ t ∈ l₂) : l₁.contains t = l₂.contains t := by
  by_cases hm : t ∈ l₁
  · have hm₂ : t ∈ l₂ := h.mp hm
    simp [hm, hm₂]
  · have hm₂ : t ∉ l₂ := fun hc => hm (h.mpr hc)
    simp [hm, hm₂]

theorem mem_no_stops_not_stop (tokens : List String) (u : String)
    (hu : u ∈ no_stops tokens) : u ∉ troilus_stops := by
  have h2 := (List.mem_filter.mp hu).2
  simp only [Bool.not_eq_true'] at h2
  intro hc
  rw [show troilus_stops.contains u = true from by simp [hc]] at h2
  cases h2

/-! ### Counter lemmas -/

theorem nodup_keys_countUpd (ts : List String) :
    ∀ m, (keys m).Nodup → (keys (countUpd m ts)).Nodup := by
  induction ts with
  | nil => intro m h; exact h
  | cons t ts ih =>
    intro m h
    exact ih (dUpd m t 1) (nodup_keys_dUpd m t 1 h)

theorem mem_keys_countUpd (ts : List String) :
    ∀ m w, w ∈ keys (countUpd m ts) ↔ w ∈ keys m ∨ w ∈ ts := by
  induction ts with
  | nil => intro m w; simp [countUpd]
  | cons t ts ih =>
    intro m w
    rw [show countUpd m (t :: ts) = countUpd (dUpd m t 1) ts from rfl]
    rw [ih (dUpd m t 1) w, mem_keys_dUpd]
    simp [List.mem_cons]
    tauto

theorem dGet_countUpd (ts : List String) :
    ∀ m w, dGet (countUpd m ts) w = dGet m w + ts.count w := by
  induction ts with
  | nil => intro m w; simp [countUpd]
  | cons t ts ih =>
    intro m w
    rw [show countUpd m (t :: ts) = countUpd (dUpd m t 1) ts from rfl]
    rw [ih (dUpd m t 1) w, dGet_dUpd]
    rw [List.count_cons]
    by_cases h : t = w
    · subst h
      simp
      omega
    · have hw : ¬ w = t := fun hh => h hh.symm
      simp [h, hw]

theorem nodup_keys_counterFold (ts : List String) : (keys (counterFold ts)).Nodup :=
  nodup_keys_countUpd ts [] (by simp [keys])

theorem mem_keys_counterFold (ts : List String) (w : String) :
    w ∈ keys (counterFold ts) ↔ w ∈ ts := by
  rw [counterFold, mem_keys_countUpd]
  simp [keys]

theorem dGetOpt_counterFold (ts : List String) (w : String) :
    (w ∈ ts → dGetOpt (counterFold ts) w = some (ts.count w)) ∧
      (w ∉ ts → dGetOpt (counterFold ts) w = none) := by
  constructor
  · intro hw
    have hs : (dGetOpt (counterFold ts) w).isSome = true :=
      (dGetOpt_isSome_iff _ w).mpr ((mem_keys_counterFold ts w).mpr hw)
    rcases ho : dGetOpt (counterFold ts) w with _ | v
    · rw [ho] at hs
      cases hs
    · have hv : dGet (counterFold ts) w = v := by
        unfold dGet
        rw [ho]
        rfl
      have hc : dGet (counterFold ts) w = ts.count w := by
        rw [counterFold, dGet_countUpd]
        simp [dGet, dGetOpt]
      rw [← hc, hv]
  · intro hw
    exact (dGetOpt_eq_none_iff _ w).mpr (fun hc => hw ((mem_keys_counterFold ts w).mp hc))

theorem mem_counterFold_count (ts : List String) (p : String × Nat)
    (h : p ∈ counterFold ts) : p.2 = ts.count p.1 := by
  have hm : p.1 ∈ ts := by
    rw [← mem_keys_counterFold ts p.1]
    exact List.mem_map_of_mem Prod.fst h
  have hgo : dGetOpt (counterFold ts) p.1 = some p.2 :=
    mem_dGetOpt _ p.1 p.2 (nodup_keys_counterFold ts) h
  have := (dGetOpt_counterFold ts p.1).1 hm
  rw [hgo] at this
  injection this

/-! ### Lemmas on dUpd key order -/

theorem keys_dUpd_of_mem (m : List (κ × Nat)) [DecidableEq κ] (k : κ) (c : Nat)
    (h : k ∈ keys m) : keys (dUpd m k c) = keys m := by
  induction m with
  | nil => simp [keys] at h
  | cons p m ih =>
    obtain ⟨j, v⟩ := p
    by_cases hjk : j = k
    · subst hjk
      rw [show dUpd ((j, v) :: m) j c = (j, v + c) :: m from by simp [dUpd]]
      rfl
    · rw [show dUpd ((j, v) :: m) k c = (j, v) :: dUpd m k c from by simp [dUpd, hjk]]
      show j :: keys (dUpd m k c) = j :: keys m
      have h' : k ∈ keys m := by
        rw [show keys ((j, v) :: m) = j :: keys m from rfl, List.mem_cons] at h
        rcases h with he | hm
        · exact absurd he.symm hjk
        · exact hm
      rw [ih h']

theorem keys_dUpd_of_not_mem (m : List (κ × Nat)) [DecidableEq κ] (k : κ) (c : Nat)
    (h : k ∉ keys m) : keys (dUpd m k c) = keys m ++ [k] := by
  induction m with
  | nil => rfl
  | cons p m ih =>
    obtain ⟨j, v⟩ := p
    have hjk : ¬ j = k := by
      intro hc
      exact h (by rw [show keys ((j, v) :: m) = j :: keys m from rfl, hc]; exact
        List.mem_cons_self k (keys m))
    rw [show dUpd ((j, v) :: m) k c = (j, v) :: dUpd m k c from by simp [dUpd, hjk]]
    show j :: keys (dUpd m k c) = (j :: keys m) ++ [k]
    have h' : k ∉ keys m := fun hm =>
      h (by rw [show keys ((j, v) :: m) = j :: keys m from rfl]; exact List.mem_cons_of_mem j hm)
    rw [ih h']
    rfl

/-! ### First-occurrence index lemmas -/

theorem firstIdx_lt_length (ts : List String) (w : String) (h : w ∈ ts) :
    firstIdx ts w < ts.length := by
  induction ts with
  | nil => cases h
  | cons t ts ih =>
    by_cases ht : t = w
    · simp [firstIdx, ht]
    · have hm : w ∈ ts := by
        rcases List.mem_cons.mp h with he | hmm
        · exact absurd he.symm ht
        · exact hmm
      rw [show firstIdx (t :: ts) w = firstIdx ts w + 1 from by simp [firstIdx, ht]]
      show firstIdx ts w + 1 < ts.length + 1
      exact Nat.succ_lt_succ (ih hm)

theorem firstIdx_append_of_mem (ts l : List String) (w : String) (h : w ∈ ts) :
    firstIdx (ts ++ l) w = firstIdx ts w := by
  induction ts with
  | nil => cases h
  | cons t ts ih =>
    by_cases ht : t = w
    · simp [firstIdx, ht]
    · have hm : w ∈ ts := by
        rcases List.mem_cons.mp h with he | hmm
        · exact absurd he.symm ht
        · exact hmm
      show (if t = w then 0 else firstIdx (ts ++ l) w + 1) = _
      rw [if_neg ht, ih hm]
      simp [firstIdx, ht]

theorem firstIdx_append_self (ts l : List String) (w : String) (h : w ∉ ts) :
    firstIdx (ts ++ w :: l) w = ts.length := by
  induction ts with
  | nil => simp [firstIdx]
  | cons t ts ih =>
    have h1 : ¬ t = w := fun hc => h (by rw [← hc]; exact List.mem_cons_self t ts)
    have h2 : w ∉ ts := fun hm => h (List.mem_cons_of_mem t hm)
    show (if t = w then 0 else firstIdx (ts ++ w :: l) w + 1) = ts.length + 1
    rw [if_neg h1, ih h2]

/-! ### Counter key-order and `most_common` lemmas -/

theorem counterFold_concat (ts : List String) (t : String) :
    counterFold (ts ++ [t]) = dUpd (counterFold ts) t 1 := by
  unfold counterFold countUpd
  rw [List.foldl_append]
  rfl

theorem keys_counterFold_firstIdx (ts : List String) :
    (keys (counterFold ts)).Pairwise (fun w v => firstIdx ts w < firstIdx ts v) := by
  induction ts using List.reverseRecOn with
  | nil => simp [counterFold, countUpd, keys]
  | append_singleton ts t ih =>
    rw [counterFold_concat]
    by_cases hm : t ∈ keys (counterFold ts)
    · rw [keys_dUpd_of_mem _ _ _ hm]
      refine List.Pairwise.imp_of_mem ?_ ih
      intro a b ha hb hab
      rw [firstIdx_append_of_mem ts [t] a ((mem_keys_counterFold ts a).mp ha),
        firstIdx_append_of_mem ts [t] b ((mem_keys_counterFold ts b).mp hb)]
      exact hab
    · rw [keys_dUpd_of_not_mem _ _ _ hm]
      rw [List.pairwise_append]
      refine ⟨?_, by simp, ?_⟩
      · refine List.Pairwise.imp_of_mem ?_ ih
        intro a b ha hb hab
        rw [firstIdx_append_of_mem ts [t] a ((mem_keys_counterFold ts a).mp ha),
          firstIdx_append_of_mem ts [t] b ((mem_keys_counterFold ts b).mp hb)]
        exact hab
      · intro a ha b hb
        rw [List.mem_singleton] at hb
        subst hb
        have ha' : a ∈ ts := (mem_keys_counterFold ts a).mp ha
        have hnt : b ∉ ts := fun hc => hm ((mem_keys_counterFold ts b).mpr hc)
        rw [firstIdx_append_of_mem ts [b] a ha', firstIdx_append_self ts [] b hnt]
        exact firstIdx_lt_length ts a ha'

theorem pairwise_insertDesc (p : String × Nat) (l : List (String × Nat))
    (h : l.Pairwise (fun a b => b.2 ≤ a.2)) :
    (insertSorted (fun a b : String × Nat => decide (a.2 < b.2)) p l).Pairwise
      (fun a b => b.2 ≤ a.2) := by
  induction l with
  | nil => simp [insertSorted]
  | cons q qs ih =>
    rcases List.pairwise_cons.mp h with ⟨hq, hqs⟩
    by_cases hp : p.2 < q.2
    · rw [show insertSorted (fun a b : String × Nat => decide (a.2 < b.2)) p (q :: qs)
          = q :: insertSorted (fun a b : String × Nat => decide (a.2 < b.2)) p qs from by
        simp [insertSorted, hp]]
      refine List.Pairwise.cons ?_ (ih hqs)
      intro b hb
      rcases (mem_insertSorted _ p b qs).mp hb with he | hbq
      · subst he
        exact le_of_lt hp
      · exact hq b hbq
    · rw [show insertSorted (fun a b : String × Nat => decide (a.2 < b.2)) p (q :: qs)
          = p :: q :: qs from by simp [insertSorted, hp]]
      refine List.Pairwise.cons ?_ h
      intro b hb
      rcases List.mem_cons.mp hb with he | hbq
      · subst he
        omega
      · have := hq b hbq
        omega

theorem sortDesc_sorted (l : List (String × Nat)) :
    (sortStable (fun a b : String × Nat => decide (a.2 < b.2)) l).Pairwise
      (fun a b => b.2 ≤ a.2) := by
  induction l with
  | nil => simp [sortStable]
  | cons p ps ih => exact pairwise_insertDesc p _ ih

theorem filter_insertDesc (p : String × Nat) (c : Nat) (l : List (String × Nat)) :
    (insertSorted (fun a b : String × Nat => decide (a.2 < b.2)) p l).filter
        (fun q => q.2 = c)
      = (if p.2 = c then [p] else []) ++ l.filter (fun q => q.2 = c) := by
  induction l with
  | nil =>
    by_cases h : p.2 = c <;> simp [insertSorted, h]
  | cons q qs ih =>
    by_cases hp : p.2 < q.2
    · rw [show insertSorted (fun a b : String × Nat => decide (a.2 < b.2)) p (q :: qs)
          = q :: insertSorted (fun a b : String × Nat => decide (a.2 < b.2)) p qs from by
        simp [insertSorted, hp]]
      rw [List.filter_cons, List.filter_cons, ih]
      by_cases hq : q.2 = c
      · have hpc : ¬ p.2 = c := by omega
        simp [hq, hpc]
      · simp [hq]
    · rw [show insertSorted (fun a b : String × Nat => decide (a.2 < b.2)) p (q :: qs)
          = p :: q :: qs from by simp [insertSorted, hp]]
      rw [List.filter_cons]
      by_cases hpc : p.2 = c <;> simp [hpc]

theorem sortDesc_filter (l : List (String × Nat)) (c : Nat) :
    (sortStable (fun a b : String × Nat => decide (a.2 < b.2)) l).filter (fun q => q.2 = c)
      = l.filter (fun q => q.2 = c) := by
  induction l with
  | nil => rfl
  | cons p ps ih =>
    rw [show sortStable (fun a b : String × Nat => decide (a.2 < b.2)) (p :: ps)
        = insertSorted (fun a b : String × Nat => decide (a.2 < b.2)) p
            (sortStable (fun a b : String × Nat => decide (a.2 < b.2)) ps) from rfl]
    rw [filter_insertDesc, ih, List.filter_cons]
    by_cases h : p.2 = c <;> simp [h]

/-! ### gensim Dictionary lemmas -/

theorem length_assignIds (ws : List String) : ∀ n, (assignIds ws n).length = ws.length := by
  induction ws with
  | nil => intro n; rfl
  | cons w ws ih =>
    intro n
    show (assignIds ws (n + 1)).length + 1 = ws.length + 1
    rw [ih (n + 1)]

theorem keys_assignIds (ws : List String) : ∀ n, keys (assignIds ws n) = ws := by
  induction ws with
  | nil => intro n; rfl
  | cons w ws ih =>
    intro n
    show w :: keys (assignIds ws (n + 1)) = w :: ws
    rw [ih (n + 1)]

theorem snd_assignIds (ws : List String) :
    ∀ n, (assignIds ws n).map Prod.snd = List.range' n ws.length := by
  induction ws with
  | nil => intro n; rfl
  | cons w ws ih =>
    intro n
    show n :: (assignIds ws (n + 1)).map Prod.snd = List.range' n (ws.length + 1)
    rw [ih (n + 1), List.range'_succ]

theorem hasKey_iff_mem_keys (m : List (κ × Nat)) [DecidableEq κ] (k : κ) :
    hasKey m k = true ↔ k ∈ keys m :=
  dGetOpt_isSome_iff m k

theorem hasKey_eq_false_iff (m : List (κ × Nat)) [DecidableEq κ] (k : κ) :
    hasKey m k = false ↔ k ∉ keys m := by
  rw [Bool.eq_false_iff]
  exact not_congr (hasKey_iff_mem_keys m k)

theorem mem_missingTokens (t2i : List (String × Nat)) (doc : List String) (w : String) :
    w ∈ missingTokens t2i doc ↔ w ∈ doc ∧ w ∉ keys t2i := by
  unfold missingTokens
  rw [(sortStable_perm _ _).mem_iff, List.mem_filter]
  rw [show ((counterFold doc).map Prod.fst) = keys (counterFold doc) from rfl]
  rw [mem_keys_counterFold]
  apply and_congr Iff.rfl
  rw [Bool.not_eq_true']
  exact hasKey_eq_false_iff t2i w

theorem nodup_missingTokens (t2i : List (String × Nat)) (doc : List String) :
    (missingTokens t2i doc).Nodup := by
  unfold missingTokens
  rw [(sortStable_perm _ _).nodup_iff]
  exact (nodup_keys_counterFold doc).filter _

theorem keys_addDocument (t2i : List (String × Nat)) (doc : List String) :
    keys (addDocument t2i doc) = keys t2i ++ missingTokens t2i doc := by
  unfold addDocument keys
  rw [List.map_append]
  congr 1
  exact keys_assignIds _ _

theorem addDocument_invariant (t2i : List (String × Nat)) (doc : List String)
    (h1 : t2i.map Prod.snd = List.range' 0 t2i.length)
    (h2 : (keys t2i).Nodup) :
    (addDocument t2i doc).map Prod.snd = List.range' 0 (addDocument t2i doc).length ∧
      (keys (addDocument t2i doc)).Nodup := by
  constructor
  · show (t2i ++ assignIds (missingTokens t2i doc) t2i.length).map Prod.snd = _
    rw [List.map_append, h1, snd_assignIds]
    rw [show (addDocument t2i doc).length
        = t2i.length + (missingTokens t2i doc).length from by
      unfold addDocument
      rw [List.length_append, length_assignIds]]
    have hr := List.range'_append 0 t2i.length (missingTokens t2i doc).length 1
    rw [Nat.one_mul, Nat.zero_add] at hr
    rw [hr, Nat.add_comm]
  · rw [keys_addDocument, List.nodup_append]
    refine ⟨h2, nodup_missingTokens t2i doc, ?_⟩
    intro w hw hwm
    exact ((mem_missingTokens t2i doc w).mp hwm).2 hw

theorem hasKey_addDocument_iff (t2i : List (String × Nat)) (doc : List String) (w : String) :
    hasKey (addDocument t2i doc) w = true ↔ w ∈ keys t2i ∨ w ∈ doc := by
  rw [hasKey_iff_mem_keys, keys_addDocument, List.mem_append, mem_missingTokens]
  by_cases h : w ∈ keys t2i <;> simp [h]

theorem dictionaryFold_invariant (docs : List (List String)) :
    ∀ t2i, t2i.map Prod.snd = List.range' 0 t2i.length → (keys t2i).Nodup →
      ((docs.foldl addDocument t2i).map Prod.snd
          = List.range' 0 (docs.foldl addDocument t2i).length ∧
        (keys (docs.foldl addDocument t2i)).Nodup) ∧
      (∀ w, w ∈ keys t2i ∨ w ∈ docs.flatten →
        hasKey (docs.foldl addDocument t2i) w = true) := by
  induction docs with
  | nil =>
    intro t2i h1 h2
    refine ⟨⟨h1, h2⟩, ?_⟩
    intro w hw
    rw [show List.foldl addDocument t2i [] = t2i from rfl, hasKey_iff_mem_keys]
    simpa using hw
  | cons doc docs ih =>
    intro t2i h1 h2
    have hstep := addDocument_invariant t2i doc h1 h2
    have ihh := ih (addDocument t2i doc) hstep.1 hstep.2
    refine ⟨ihh.1, ?_⟩
    intro w hw
    apply ihh.2
    rcases hw with hk | hf
    · left
      rw [← hasKey_iff_mem_keys, hasKey_addDocument_iff]
      exact Or.inl hk
    · rw [show (doc :: docs).flatten = doc ++ docs.flatten from rfl, List.mem_append] at hf
      rcases hf with hd | hrest
      · left
        rw [← hasKey_iff_mem_keys, hasKey_addDocument_iff]
        exact Or.inr hd
      · exact Or.inr hrest

/-! ### doc2bow lemmas -/

theorem sumVals_filter_dUpd (m : List (String × Nat)) (k : String) (c : Nat)
    (p : String → Bool) :
    sumVals ((dUpd m k c).filter (fun q => p q.1))
      = sumVals (m.filter (fun q => p q.1)) + (if p k then c else 0) := by
  induction m with
  | nil =>
    rw [show dUpd ([] : List (String × Nat)) k c = [(k, c)] from rfl]
    by_cases h : p k <;> simp [sumVals, h]
  | cons q m ih =>
    obtain ⟨j, v⟩ := q
    by_cases hjk : j = k
    · subst hjk
      rw [show dUpd ((j, v) :: m) j c = (j, v + c) :: m from by simp [dUpd]]
      rw [List.filter_cons, List.filter_cons]
      by_cases h : p j <;> simp [sumVals, h] <;> omega
    · rw [show dUpd ((j, v) :: m) k c = (j, v) :: dUpd m k c from by simp [dUpd, hjk]]
      rw [List.filter_cons, List.filter_cons]
      by_cases h : p j <;> simp [sumVals, h] at ih ⊢ <;> omega

theorem sumVals_filter_countUpd (ts : List String) (p : String → Bool) :
    ∀ m, sumVals ((countUpd m ts).filter (fun q => p q.1))
      = sumVals (m.filter (fun q => p q.1)) + (ts.filter p).length := by
  induction ts with
  | nil => intro m; simp [countUpd]
  | cons t ts ih =>
    intro m
    rw [show countUpd m (t :: ts) = countUpd (dUpd m t 1) ts from rfl]
    rw [ih (dUpd m t 1), sumVals_filter_dUpd, List.filter_cons]
    by_cases h : p t <;> simp [h] <;> omega

theorem dGetOpt_snd_inj : ∀ (t2i : List (String × Nat)), (t2i.map Prod.snd).Nodup →
    ∀ w₁ w₂ i, dGetOpt t2i w₁ = some i → dGetOpt t2i w₂ = some i → w₁ = w₂ := by
  intro t2i
  induction t2i with
  | nil => intro _ w₁ w₂ i h1; cases h1
  | cons q m ih =>
    obtain ⟨j, v⟩ := q
    intro hv w₁ w₂ i h1 h2
    rw [List.map_cons, List.nodup_cons] at hv
    by_cases b1 : j = w₁ <;> by_cases b2 : j = w₂
    · exact b1.symm.trans b2
    · rw [show dGetOpt ((j, v) :: m) w₁ = some v from by simp [dGetOpt, b1]] at h1
      injection h1 with hvi
      rw [show dGetOpt ((j, v) :: m) w₂ = dGetOpt m w₂ from by simp [dGetOpt, b2]] at h2
      have hmem : i ∈ m.map Prod.snd := List.mem_map_of_mem Prod.snd (dGetOpt_mem m w₂ i h2)
      rw [← hvi] at hmem
      exact absurd hmem hv.1
    · rw [show dGetOpt ((j, v) :: m) w₂ = some v from by simp [dGetOpt, b2]] at h2
      injection h2 with hvi
      rw [show dGetOpt ((j, v) :: m) w₁ = dGetOpt m w₁ from by simp [dGetOpt, b1]] at h1
      have hmem : i ∈ m.map Prod.snd := List.mem_map_of_mem Prod.snd (dGetOpt_mem m w₁ i h1)
      rw [← hvi] at hmem
      exact absurd hmem hv.1
    · rw [show dGetOpt ((j, v) :: m) w₁ = dGetOpt m w₁ from by simp [dGetOpt, b1]] at h1
      rw [show dGetOpt ((j, v) :: m) w₂ = dGetOpt m w₂ from by simp [dGetOpt, b2]] at h2
      exact ih hv.2 w₁ w₂ i h1 h2

theorem keys_bowStep_mono (t2i : List (String × Nat)) :
    ∀ (cnt : List (String × Nat)) (acc : List (Nat × Nat)) (i : Nat),
      i ∈ keys acc → i ∈ keys (cnt.foldl (bowStep t2i) acc) := by
  intro cnt
  induction cnt with
  | nil => intro acc i h; exact h
  | cons p cnt ih =>
    intro acc i h
    show i ∈ keys (cnt.foldl (bowStep t2i) (bowStep t2i acc p))
    apply ih
    rcases ho : dGetOpt t2i p.1 with _ | j
    · rw [show bowStep t2i acc p = acc from by unfold bowStep; rw [ho]]
      exact h
    · rw [show bowStep t2i acc p = dSet acc j p.2 from by unfold bowStep; rw [ho]]
      exact (mem_keys_dSet acc j i p.2).mpr (Or.inl h)

theorem mem_keys_bowStep_fold (t2i : List (String × Nat)) :
    ∀ (cnt : List (String × Nat)) (acc : List (Nat × Nat)) (p : String × Nat) (i : Nat),
      p ∈ cnt → dGetOpt t2i p.1 = some i → i ∈ keys (cnt.foldl (bowStep t2i) acc) := by
  intro cnt
  induction cnt with
  | nil => intro acc p i h; cases h
  | cons q cnt ih =>
    intro acc p i hp ho
    rcases List.mem_cons.mp hp with he | hm
    · subst he
      show i ∈ keys (cnt.foldl (bowStep t2i) (bowStep t2i acc p))
      apply keys_bowStep_mono
      rw [show bowStep t2i acc p = dSet acc i p.2 from by unfold bowStep; rw [ho]]
      exact (mem_keys_dSet acc i i p.2).mpr (Or.inr rfl)
    · exact ih (bowStep t2i acc q) p i hm ho

theorem sumVals_bowStep_fold (t2i : List (String × Nat))
    (hinj : ∀ w₁ w₂ i, dGetOpt t2i w₁ = some i → dGetOpt t2i w₂ = some i → w₁ = w₂) :
    ∀ (cnt : List (String × Nat)) (acc : List (Nat × Nat)),
      (cnt.map Prod.fst).Nodup →
      (∀ p ∈ cnt, ∀ i, dGetOpt t2i p.1 = some i → i ∉ keys acc) →
      sumVals (cnt.foldl (bowStep t2i) acc)
        = sumVals acc + sumVals (cnt.filter (fun p => hasKey t2i p.1)) := by
  intro cnt
  induction cnt with
  | nil => intro acc _ _; simp [sumVals]
  | cons p cnt ih =>
    intro acc hnd hfresh
    rw [List.map_cons, List.nodup_cons] at hnd
    rcases ho : dGetOpt t2i p.1 with _ | i
    · show sumVals (cnt.foldl (bowStep t2i) (bowStep t2i acc p)) = _
      rw [show bowStep t2i acc p = acc from by unfold bowStep; rw [ho]]
      rw [ih acc hnd.2 (fun q hq => hfresh q (List.mem_cons_of_mem p hq))]
      rw [List.filter_cons]
      rw [show hasKey t2i p.1 = false from by unfold hasKey; rw [ho]; rfl]
      simp
    · show sumVals (cnt.foldl (bowStep t2i) (bowStep t2i acc p)) = _
      rw [show bowStep t2i acc p = dSet acc i p.2 from by unfold bowStep; rw [ho]]
      have hifresh : i ∉ keys acc := hfresh p (List.mem_cons_self p cnt) i ho
      have hfresh' : ∀ q ∈ cnt, ∀ j, dGetOpt t2i q.1 = some j →
          j ∉ keys (dSet acc i p.2) := by
        intro q hq j hj hcj
        rcases (mem_keys_dSet acc i j p.2).mp hcj with hja | hji
        · exact hfresh q (List.mem_cons_of_mem p hq) j hj hja
        · subst hji
          have hqp : q.1 = p.1 := hinj q.1 p.1 j hj ho
          exact hnd.1 (hqp ▸ List.mem_map_of_mem Prod.fst hq)
      rw [ih (dSet acc i p.2) hnd.2 hfresh']
      rw [sumVals_dSet_fresh acc i p.2 hifresh]
      rw [List.filter_cons]
      rw [show hasKey t2i p.1 = true from by unfold hasKey; rw [ho]; rfl]
      simp [sumVals]
      omega

/-! ### Corpus-total lemmas -/

theorem dGet_totalWordCount (corpus : List (List (Nat × Nat))) (i : Nat) :
    dGet (totalWordCount corpus) i
      = ((corpus.flatten.filter (fun p => p.1 = i)).map Prod.snd).sum := by
  unfold totalWordCount
  rw [dGet_foldUpd]
  simp [dGet, dGetOpt]

theorem mem_keys_totalWordCount (corpus : List (List (Nat × Nat))) (i : Nat) :
    i ∈ keys (totalWordCount corpus) ↔ i ∈ corpus.flatten.map Prod.fst := by
  unfold totalWordCount
  rw [mem_keys_foldUpd]
  simp [keys]

/-! ### Claim theorems -/

/-- **C6.** `corpus_totals` is order-independent: permuting the sequence of
sparse document vectors leaves the elementwise sum unchanged - every id maps
to the same total, and the key sets coincide. -/
theorem totalWordCount_perm_invariant (c₁ c₂ : List (List (Nat × Nat)))
    (h : c₁.Perm c₂) (i : Nat) :
    dGet (totalWordCount c₁) i = dGet (totalWordCount c₂) i ∧
      (i ∈ keys (totalWordCount c₁) ↔ i ∈ keys (totalWordCount c₂)) := by
  have hf : c₁.flatten.Perm c₂.flatten := h.flatten
  constructor
  · rw [dGet_totalWordCount, dGet_totalWordCount]
    exact ((hf.filter _).map Prod.snd).sum_eq
  · rw [mem_keys_totalWordCount, mem_keys_totalWordCount]
    exact (hf.map Prod.fst).mem_iff

/-- Witness for the C6 theorem: swapping the two document vectors of a small
corpus leaves the total of id 1 (and its key set) unchanged. -/
theorem totalWordCount_perm_invariant_witness :
    (([[(0, 2), (1, 1)], [(1, 1), (2, 1)]] : List (List (Nat × Nat))).Perm
        [[(1, 1), (2, 1)], [(0, 2), (1, 1)]]) ∧
      (dGet (totalWordCount [[(0, 2), (1, 1)], [(1, 1), (2, 1)]]) 1
          = dGet (totalWordCount [[(1, 1), (2, 1)], [(0, 2), (1, 1)]]) 1 ∧
        (1 ∈ keys (totalWordCount [[(0, 2), (1, 1)], [(1, 1), (2, 1)]]) ↔
          1 ∈ keys (totalWordCount [[(1, 1), (2, 1)], [(0, 2), (1, 1)]]))) :=
  ⟨by decide, totalWordCount_perm_invariant _ _ (by decide) 1⟩

/-- **C2 amended.** `Dictionary(documents)` assigns each distinct token across
all documents a unique integer id - the id list is exactly `0, ..., V-1`, no
token appears twice, and every token of every document is in the vocabulary -
scanning documents in input order; but within a document the tokens new to the
vocabulary receive their ids in sorted (lexicographic) order rather than
first-appearance order, so the example vocabulary is
`{benefit: 0, cost: 1, analysis: 2}`. -/
theorem dictionaryFrom_unique_ids (docs : List (List String)) :
    (dictionaryFrom docs).map Prod.snd = List.range (dictionaryFrom docs).length ∧
    (keys (dictionaryFrom docs)).Nodup ∧
    ∀ w ∈ docs.flatten, hasKey (dictionaryFrom docs) w = true := by
  have h := dictionaryFold_invariant docs [] (by rfl) (by simp [keys])
  refine ⟨?_, h.1.2, ?_⟩
  · rw [List.range_eq_range']
    exact h.1.1
  · intro w hw
    exact h.2 w (Or.inr hw)

/-- **C5.** For every document token sequence and every well-formed vocabulary
(distinct tokens, distinct ids), the sparse vector built by `doc2bow`
satisfies the sum invariant: its counts add up to the number of document
tokens present in the vocabulary; and an id absent from the vector's keys has
implicit count zero - every token mapped to that id occurs zero times in the
document. -/
theorem doc2bow_sum_invariant (t2i : List (String × Nat)) (doc : List String)
    (hk : (keys t2i).Nodup) (hv : (t2i.map Prod.snd).Nodup) :
    sumVals (doc2bow t2i doc) = (doc.filter (fun w => hasKey t2i w)).length ∧
    ∀ i, i ∉ keys (doc2bow t2i doc) →
      ∀ w, dGetOpt t2i w = some i → doc.count w = 0 := by
  constructor
  · have h1 : sumVals (doc2bow t2i doc)
        = sumVals ((counterFold doc).foldl (bowStep t2i) []) := by
      unfold doc2bow sumVals
      exact ((sortStable_perm _ _).map Prod.snd).sum_eq
    rw [h1]
    rw [sumVals_bowStep_fold t2i (dGetOpt_snd_inj t2i hv) (counterFold doc) []
      (nodup_keys_counterFold doc) (by intro p _ i _; simp [keys])]
    have h2 := sumVals_filter_countUpd doc (fun w => hasKey t2i w) []
    rw [show sumVals (([] : List (Nat × Nat))) = 0 from rfl, Nat.zero_add]
    rw [show sumVals (([] : List (String × Nat)).filter
        (fun q => hasKey t2i q.1)) = 0 from rfl, Nat.zero_add] at h2
    exact h2
  · intro i hi w hw
    by_contra hc
    have hmem : w ∈ doc := by
      by_contra hnm
      exact hc (List.count_eq_zero_of_not_mem hnm)
    have hcf : dGetOpt (counterFold doc) w = some (doc.count w) :=
      (dGetOpt_counterFold doc w).1 hmem
    have hment : (w, doc.count w) ∈ counterFold doc := dGetOpt_mem _ _ _ hcf
    have hikey : i ∈ keys ((counterFold doc).foldl (bowStep t2i) []) :=
      mem_keys_bowStep_fold t2i (counterFold doc) [] (w, doc.count w) i hment hw
    apply hi
    exact ((sortStable_perm _ _).map Prod.fst).mem_iff.mpr hikey

/-- Witness for the C5 theorem at the example vocabulary
`{cost: 0, benefit: 1, analysis: 2}` and the document
`["cost", "cost", "benefit", "extra"]` (three tokens in vocabulary). -/
theorem doc2bow_sum_invariant_witness :
    ((keys [("cost", 0), ("benefit", 1), ("analysis", 2)]).Nodup ∧
      (([("cost", 0), ("benefit", 1), ("analysis", 2)] : List (String × Nat)).map
        Prod.snd).Nodup) ∧
    (sumVals (doc2bow [("cost", 0), ("benefit", 1), ("analysis", 2)]
          ["cost", "cost", "benefit", "extra"])
        = ((["cost", "cost", "benefit", "extra"] : List String).filter
            (fun w => hasKey [("cost", 0), ("benefit", 1), ("analysis", 2)] w)).length ∧
      ∀ i, i ∉ keys (doc2bow [("cost", 0), ("benefit", 1), ("analysis", 2)]
            ["cost", "cost", "benefit", "extra"]) →
        ∀ w, dGetOpt [("cost", 0), ("benefit", 1), ("analysis", 2)] w = some i →
          (["cost", "cost", "benefit", "extra"] : List String).count w = 0) :=
  ⟨⟨by decide, by decide⟩,
    doc2bow_sum_invariant [("cost", 0), ("benefit", 1), ("analysis", 2)]
      ["cost", "cost", "benefit", "extra"] (by decide) (by decide)⟩

/-- **C7.** `Counter` returns occurrence counts, and `most_common(n)` is
sorted by descending count with ties broken by first-encounter order: every
returned pair carries its token's true occurrence count; counts are
non-increasing; for every count value the sorted list's entries of that count
are exactly the counter's entries of that count in counter (insertion) order;
the counter's keys are ordered by the index of their first occurrence in the
input; and a lookup yields the exact count for a present token and nothing
for an absent one. -/
theorem most_common_counts_desc_stable (ts : List String) (n : Nat) :
    (∀ p ∈ most_common ts n, p.2 = ts.count p.1) ∧
    (most_common ts n).Pairwise (fun a b => b.2 ≤ a.2) ∧
    (∀ c, (sortStable (fun a b : String × Nat => decide (a.2 < b.2)) (counterFold ts)).filter
        (fun q => q.2 = c) = (counterFold ts).filter (fun q => q.2 = c)) ∧
    (keys (counterFold ts)).Pairwise (fun w v => firstIdx ts w < firstIdx ts v) ∧
    (∀ w, (w ∈ ts → dGetOpt (counterFold ts) w = some (ts.count w)) ∧
      (w ∉ ts → dGetOpt (counterFold ts) w = none)) := by
  refine ⟨?_, ?_, ?_, keys_counterFold_firstIdx ts, fun w => dGetOpt_counterFold ts w⟩
  · intro p hp
    have h1 : p ∈ sortStable (fun a b : String × Nat => decide (a.2 < b.2)) (counterFold ts) :=
      (List.take_sublist n _).subset hp
    exact mem_counterFold_count ts p ((sortStable_perm _ _).mem_iff.mp h1)
  · exact (sortDesc_sorted (counterFold ts)).sublist (List.take_sublist n _)
  · exact fun c => sortDesc_filter (counterFold ts) c

/-- **C1.** The claim says a failed fetch (unreachable host or non-2xx status)
is skipped and the loop continues with the remaining URLs. In the source the
bare name `HTTPError` of the first `except` clause is never bound (only
`import requests` runs), so by Python's lazy evaluation of `except`-clause
expressions any fetch failure raises `NameError`, which aborts the whole loop;
had the name been bound (as the notebook's own prose assumes), the failing
source would indeed be skipped and one response kept per successful fetch. -/
theorem fetchLoop_crashes_on_fetch_failure :
    fetchLoop httpErrorNameBound
        [FetchOutcome.success 0, FetchOutcome.connectionError, FetchOutcome.success 1] []
      = Except.error "NameError: name HTTPError is not defined" ∧
    fetchLoop httpErrorNameBound
        [FetchOutcome.success 0, FetchOutcome.httpError, FetchOutcome.success 1] []
      = Except.error "NameError: name HTTPError is not defined" ∧
    fetchLoop true
        [FetchOutcome.success 0, FetchOutcome.connectionError, FetchOutcome.success 1] []
      = Except.ok [0, 1] ∧
    fetchLoop true
        [FetchOutcome.success 0, FetchOutcome.httpError, FetchOutcome.success 1] []
      = Except.ok [0, 1] :=
  ⟨rfl, rfl, rfl, rfl⟩

/-- **C2 counterexample.** For the spec's own example documents the gensim
vocabulary is `{benefit: 0, cost: 1, analysis: 2}` - within a document the new
tokens are assigned ids in sorted order, not first-appearance order - so the
claimed vocabulary `{cost: 0, benefit: 1, analysis: 2}` is wrong: `cost` gets
id 1, not 0. -/
theorem dictionary_example_sorted_not_first_seen :
    dictionaryFrom [["cost","cost","benefit"],["benefit","analysis"]]
      = [("benefit", 0), ("cost", 1), ("analysis", 2)] ∧
    dGetOpt (dictionaryFrom [["cost","cost","benefit"],["benefit","analysis"]]) "cost"
      ≠ some 0 := by
  decide

/-- **C3 counterexample.** A stop word can appear in the Normalizer's final
output: the input token `beings` survives every filter (it is alphabetic and
not itself a stop word) and the lemmatizer, which runs after the stop-word
filter, maps it to `being`, which is in the configured stop-word set. -/
theorem stop_word_reappears_after_lemmatization :
    (("being" : String) ∈ troilus_stops) ∧
      lemmatized wordnet_lemmatize ["beings"] = ["being"] := by
  decide

/-- **C3 amended.** Stop words never appear in the output of the stop-word
filter (`no_stops`), whatever case they had in the input; consequently they
never appear in the lemmatized output as long as the lemmatizer maps no
surviving non-stop token onto a stop word. -/
theorem stop_words_filtered_before_lemmatization (lem : String → String)
    (tokens : List String) (t : String) (h1 : t ∈ troilus_stops)
    (h2 : ∀ s, lem s ∈ troilus_stops → s ∈ troilus_stops) :
    t ∉ no_stops tokens ∧ t ∉ lemmatized lem tokens := by
  constructor
  · intro hc
    exact mem_no_stops_not_stop tokens t hc h1
  · intro hc
    obtain ⟨s, hsmem, hst⟩ := List.mem_map.mp hc
    refine mem_no_stops_not_stop tokens s hsmem (h2 s ?_)
    rw [hst]
    exact h1

/-- Witness for the amended C3 theorem at the stop word `the`, input tokens
`["The", "Cat"]` and the identity lemmatizer. -/
theorem stop_words_filtered_before_lemmatization_witness :
    (("the" : String) ∈ troilus_stops) ∧
      ("the" ∉ no_stops ["The", "Cat"] ∧ "the" ∉ lemmatized (fun s => s) ["The", "Cat"]) :=
  ⟨by decide,
    stop_words_filtered_before_lemmatization (fun s => s) (["The", "Cat"]) ("the")
      (by decide) (fun _ h => h)⟩

/-- **C4 counterexample.** The corpus-total mapping is a `defaultdict(int)`:
looking up an id it has never seen (here id 5) silently returns `0`, the very
value a present zero-count entry would report, so there is no explicit
"absent" signal in the corpus-total counting. -/
theorem total_word_count_silent_zero :
    dGet (totalWordCount [[(0, 2), (1, 1)], [(1, 1), (2, 1)]]) 5 = 0 ∧
      (5 : Nat) ∉ keys (totalWordCount [[(0, 2), (1, 1)], [(1, 1), (2, 1)]]) := by
  decide

/-- **C4 amended.** The vocabulary lookup (`token2id.get`) does return an
explicit absent signal - `None` exactly when the token is not a key - but the
corpus-total `defaultdict(int)` lookup returns `0` for every id it has not
seen, conflating "absent" with "present with count zero". (All indexer
operations are total functions; none raises.) -/
theorem vocab_get_explicit_totals_conflate_zero :
    (∀ (t2i : List (String × Nat)) (w : String), dGetOpt t2i w = none ↔ w ∉ keys t2i) ∧
    (∀ (corpus : List (List (Nat × Nat))) (i : Nat),
        i ∉ keys (totalWordCount corpus) → dGet (totalWordCount corpus) i = 0) := by
  constructor
  · intro t2i w
    exact dGetOpt_eq_none_iff t2i w
  · intro corpus i h
    unfold dGet
    rw [(dGetOpt_eq_none_iff _ i).mpr h]
    rfl

/-- **C9.** Every token handed to the lemmatizer through `no_stops` is
non-empty and consists solely of lowercase ASCII letters (code points
97-122): case folding runs before the alphabetic filter, `isalpha` rejects
the empty string and every token containing a digit, punctuation mark or
apostrophe, and the stop-word filter only deletes elements. -/
theorem no_stops_tokens_lowercase_alpha (tokens : List String) (t : String)
    (h : t ∈ no_stops tokens) :
    t.data ≠ [] ∧ ∀ c ∈ t.data, 97 ≤ c.toNat ∧ c.toNat ≤ 122 := by
  have h1 := List.mem_filter.mp h
  have h2 := List.mem_filter.mp h1.1
  obtain ⟨s, _, hs⟩ := List.mem_map.mp h2.1
  have ha := (pyIsAlpha_iff t).mp h2.2
  refine ⟨ha.1, ?_⟩
  intro c hc
  have hcc := ha.2 c hc
  rw [← hs, pyLower_data] at hc
  obtain ⟨c₀, _, hc₀⟩ := List.mem_map.mp hc
  rw [← hc₀] at hcc ⊢
  exact pyCharLower_lowercase c₀ hcc

/-- Witness for the C9 theorem: the token `cat` (from input `Cat`) survives
to `no_stops` and is non-empty lowercase alphabetic. -/
theorem no_stops_tokens_lowercase_alpha_witness :
    (("cat" : String) ∈ no_stops ["Cat"]) ∧
      (("cat" : String).data ≠ [] ∧
        ∀ c ∈ ("cat" : String).data, 97 ≤ c.toNat ∧ c.toNat ≤ 122) :=
  ⟨by decide, no_stops_tokens_lowercase_alpha (["Cat"]) ("cat") (by decide)⟩

/-- **C10.** The apostrophe-bearing entries of the Early-Modern stop list can
never match: every token reaching the stop-word filter is purely alphabetic,
so running the pipeline with the full stop set gives exactly the same output
as running it with the apostrophe-bearing entries removed - for the stop
filter stage and for the final lemmatized output alike. -/
theorem apostrophe_stops_never_match (lem : String → String) (tokens : List String) :
    no_stops tokens = no_stops_pruned tokens ∧
      lemmatized lem tokens = lemmatized_pruned lem tokens := by
  have hf : no_stops tokens = no_stops_pruned tokens := by
    unfold no_stops no_stops_pruned
    apply List.filter_congr
    intro t ht
    have h2 := List.mem_filter.mp ht
    have ha := (pyIsAlpha_iff t).mp h2.2
    have hna : ('\x27' : Char) ∉ t.data := by
      intro hc
      exact pyIsAlphaChar_ne_apos _ (ha.2 _ hc) rfl
    have hcc : troilus_stops.contains t = troilus_stops_pruned.contains t := by
      apply contains_congr_of_mem_iff
      constructor
      · intro hm
        unfold troilus_stops_pruned
        rw [List.mem_filter]
        refine ⟨hm, ?_⟩
        simp [hna]
      · intro hm
        exact (List.mem_filter.mp hm).1
    rw [hcc]
  refine ⟨hf, ?_⟩
  unfold lemmatized lemmatized_pruned
  rw [hf]

/-- **C8.** Order preservation: the pipeline output is exactly the image
(under case folding then lemmatization) of the sublist of the original token
sequence whose members survive the filters - removed items are deleted and
nothing is reordered. -/
theorem lemmatized_order_preserved (lem : String → String) (tokens : List String) :
    lemmatized lem tokens =
      (tokens.filter fun s => (!troilus_stops.contains (pyLower s)) && pyIsAlpha (pyLower s)).map
        (fun s => lem (pyLower s)) ∧
    (tokens.filter fun s =>
        (!troilus_stops.contains (pyLower s)) && pyIsAlpha (pyLower s)).Sublist tokens := by
  refine ⟨?_, List.filter_sublist tokens⟩
  unfold lemmatized no_stops alpha_only lower_tokens
  rw [show ((tokens.map pyLower).filter pyIsAlpha).filter (fun t => !troilus_stops.contains t)
      = (tokens.map pyLower).filter (fun t => (!troilus_stops.contains t) && pyIsAlpha t) from by
    simp [List.filter_filter]]
  rw [List.filter_map, List.map_map]
  rfl

end NLP
